import Mathlib

/-!
Verification development for the PDQ similarity-index core
(python-threatexchange, signal_type/pdq).

The source files embedded here are
  threatexchange/signal_type/pdq/pdq_index.py   (class PDQIndex)
  threatexchange/signal_type/pdq/pdq_index2.py  (class PDQIndex2)

The hex codec (pdq_utils.hex_to_binary_str / binary_str_to_hex /
convert_pdq_strings_to_ndarray) and the faiss / pdq_faiss_matcher search
backends are not part of the available sources; they are modelled from the
specification (sections 4.1, 4.3 and 4.4) and marked as such below.
-/

/-- Modelled from the spec: pdq_utils is not in src. Spec section 4.1: a hex
character maps to its 4-bit value; input is case-insensitive (section 6);
anything else is malformed. -/
def charToNibble (c : Char) : Option Nat :=
  if 48 ≤ c.toNat ∧ c.toNat ≤ 57 then some (c.toNat - 48)
  else if 97 ≤ c.toNat ∧ c.toNat ≤ 102 then some (c.toNat - 87)
  else if 65 ≤ c.toNat ∧ c.toNat ≤ 70 then some (c.toNat - 55)
  else none

/-- Modelled from the spec: lowercase hex digit for a nibble value
(spec section 6: lowercase on output). -/
def nibbleToChar (n : Nat) : Char :=
  if n < 10 then Char.ofNat (48 + n) else Char.ofNat (87 + n)

/-- Modelled from the spec, section 3: character k encodes bits 4k..4k+3 most
significant bit first. -/
def nibbleToBits (n : Nat) : List Bool :=
  [n.testBit 3, n.testBit 2, n.testBit 1, n.testBit 0]

/-- Value of four bits, most significant first. -/
def nibVal (b3 b2 b1 b0 : Bool) : Nat :=
  (if b3 then 8 else 0) + (if b2 then 4 else 0) + (if b1 then 2 else 0) +
    (if b0 then 1 else 0)

/-- Groups a bit string into 4-bit nibble values, most significant bit first. -/
def bitsToNibbles : List Bool → List Nat
  | b3 :: b2 :: b1 :: b0 :: rest => nibVal b3 b2 b1 b0 :: bitsToNibbles rest
  | _ => []

/-- Converts a list of characters to nibble values, failing on any non-hex
character. -/
def mapCharsToNibbles : List Char → Option (List Nat)
  | [] => some []
  | c :: rest =>
    match charToNibble c, mapCharsToNibbles rest with
    | some n, some ns => some (n :: ns)
    | _, _ => none

/-- Modelled from the spec: pdq_utils.hex_to_binary_str. Spec section 4.1:
fails (MalformedHash) if length is not 64 or any char is not a hex digit;
otherwise the 256-bit row-major bit string of section 3. We model the bit
string as a list of booleans and failure as none. -/
def hex_to_binary_str (s : String) : Option (List Bool) :=
  if s.data.length = 64 then
    (mapCharsToNibbles s.data).map (fun ns => ns.flatMap nibbleToBits)
  else none

/-- Modelled from the spec: pdq_utils.binary_str_to_hex. Total function from a
256-bit string to 64 lowercase hex characters (spec section 4.1). -/
def binary_str_to_hex (bits : List Bool) : String :=
  String.mk ((bitsToNibbles bits).map nibbleToChar)

/-- Modelled from the spec, section 4.3: Hamming distance as the number of
positions at which two equal-length bit strings differ. -/
def hamming (a b : List Bool) : Nat :=
  (a.zip b).countP (fun p => p.1 != p.2)

/-- A 16x16 grid given by a cell function, rows in order, as the nested
Python list-of-lists built by a double loop. -/
def gridOf (f : Nat → Nat → Bool) : List (List Bool) :=
  (List.range 16).map fun a => (List.range 16).map fun b => f a b

/-- Source pdq_index2.py lines 81-87 (identical in pdq_index.py): grid[i][j] =
binary[i * 16 + j]. -/
def toGrid (binary : List Bool) : List (List Bool) :=
  gridOf fun i j => binary.getD (i * 16 + j) false

/-- Source: rotated_90. Outer loop j in 0..15; inner loop i from 15 down to 0
appending grid[i][j]; so cell (j, k) holds grid[15 - k][j]. -/
def rotated_90 (grid : List (List Bool)) : List (List Bool) :=
  gridOf fun j k => (grid.getD (15 - k) []).getD j false

/-- Source: rotated_180. Outer loop i from 15 down to 0; inner loop j from 15
down to 0 appending grid[i][j]; so cell (a, b) holds grid[15 - a][15 - b]. -/
def rotated_180 (grid : List (List Bool)) : List (List Bool) :=
  gridOf fun a b => (grid.getD (15 - a) []).getD (15 - b) false

/-- Source: rotated_270. Outer loop j from 15 down to 0; inner loop i in 0..15
appending grid[i][j]; so cell (a, b) holds grid[b][15 - a]. -/
def rotated_270 (grid : List (List Bool)) : List (List Bool) :=
  gridOf fun a b => (grid.getD b []).getD (15 - a) false

/-- Source: flipped_h. Outer loop i in 0..15; inner loop j from 15 down to 0
appending grid[i][j]; so cell (a, b) holds grid[a][15 - b]. -/
def flipped_h (grid : List (List Bool)) : List (List Bool) :=
  gridOf fun a b => (grid.getD a []).getD (15 - b) false

/-- Source: flipped_v. Outer loop i from 15 down to 0; inner loop j in 0..15
appending grid[i][j]; so cell (a, b) holds grid[15 - a][b]. -/
def flipped_v (grid : List (List Bool)) : List (List Bool) :=
  gridOf fun a b => (grid.getD (15 - a) []).getD b false

/-- Source: flipped_h_90, built from flipped_h. Outer loop j in 0..15; inner
loop i in 0..15 appending flipped_h[i][j]; so cell (j, i) holds
flipped_h[i][j]. -/
def flipped_h_90 (grid : List (List Bool)) : List (List Bool) :=
  gridOf fun j i => ((flipped_h grid).getD i []).getD j false

/-- Source: flipped_h_270, built from flipped_h. Outer loop j from 15 down to
0; inner loop i from 15 down to 0 appending flipped_h[i][j]; so cell (a, b)
holds flipped_h[15 - b][15 - a]. -/
def flipped_h_270 (grid : List (List Bool)) : List (List Bool) :=
  gridOf fun a b => ((flipped_h grid).getD (15 - b) []).getD (15 - a) false

/-- Source lines 147-162 of pdq_index2.py: the rows of a grid are joined into
one 256-character binary string. -/
def gridToBin (g : List (List Bool)) : List Bool :=
  g.flatten

/-- Source PDQIndex2._get_transformed_hashes (pdq_index2.py lines 62-164).
Returns the original hash followed by the seven transformed grids, each
converted back to hex. The hex decoding of the input can fail (the Python
raises); this is modelled with Option. -/
def PDQIndex2.getTransformedHashes (hash : String) : Option (List String) :=
  (hex_to_binary_str hash).map fun binary =>
    let grid := toGrid binary
    hash ::
      ([rotated_90 grid, rotated_180 grid, rotated_270 grid, flipped_h grid,
        flipped_v grid, flipped_h_90 grid, flipped_h_270 grid].map
        fun g => binary_str_to_hex (gridToBin g))

/-- Source PDQIndex._get_transformed_hashes (pdq_index.py lines 51-153); its
body is textually identical to the PDQIndex2 version. -/
def PDQIndex.getTransformedHashes (hash : String) : Option (List String) :=
  (hex_to_binary_str hash).map fun binary =>
    let grid := toGrid binary
    hash ::
      ([rotated_90 grid, rotated_180 grid, rotated_270 grid, flipped_h grid,
        flipped_v grid, flipped_h_90 grid, flipped_h_270 grid].map
        fun g => binary_str_to_hex (gridToBin g))

/-- Written from the SPEC wording (section 4.2), for comparison with the
source transforms: rotate 90 clockwise, out[a][b] = in[15-b][a]. -/
def specRotate90 (binary : List Bool) : List Bool :=
  (List.range 256).map fun idx =>
    binary.getD ((15 - idx % 16) * 16 + idx / 16) false

/-- Written from the SPEC wording (section 4.2), for comparison with the
source transforms: rotate 270 clockwise, out[a][b] = in[b][15-a]. -/
def specRotate270 (binary : List Bool) : List Bool :=
  (List.range 256).map fun idx =>
    binary.getD ((idx % 16) * 16 + (15 - idx / 16)) false

/-- Written from the SPEC wording (section 4.2 compositions, as spelled out in
the claim): flip-h then rotate 90 clockwise, out[a][b] = in[15-b][15-a]. -/
def specFlipHThenR90 (binary : List Bool) : List Bool :=
  (List.range 256).map fun idx =>
    binary.getD ((15 - idx % 16) * 16 + (15 - idx / 16)) false

/-- Written from the SPEC wording (section 4.2 compositions, as spelled out in
the claim): flip-h then rotate 270 clockwise, out[a][b] = in[b][a]. -/
def specFlipHThenR270 (binary : List Bool) : List Bool :=
  (List.range 256).map fun idx =>
    binary.getD ((idx % 16) * 16 + idx / 16) false

/-- Error kinds of the spec's failure-semantics section that can arise in the
embedded operations. The Python raises an exception; our embedding returns it
as a value. -/
inductive PDQError : Type
  | malformedHash
deriving DecidableEq, Repr

/-- Modelled from the spec: pdq_utils.PDQ_CONFIDENT_MATCH_THRESHOLD is not in
src; spec section 6 names the default threshold 31. -/
def PDQ_CONFIDENT_MATCH_THRESHOLD : Int := 31

/-- State of a PDQIndex2 (pdq_index2.py lines 38-57): the match threshold, the
hash-to-id dict _deduper (modelled as an insertion-ordered association list),
the per-id metadata lists _idx_to_entries, and the vectors held by the wrapped
faiss index (modelled, per spec section 4.4, as the list of stored bit
vectors in insertion order, the position being the faiss id). -/
structure PDQIndex2State (M : Type) where
  threshold : Int
  deduper : List (String × Nat)
  idxToEntries : List (List M)
  storedVecs : List (List Bool)
deriving DecidableEq

/-- Python dict get on the modelled _deduper. -/
def lookupId (d : List (String × Nat)) (h : String) : Option Nat :=
  (d.find? (fun p => p.1 == h)).map (fun p => p.2)

/-- Modelled from the spec: faiss IndexFlatL2 range_search over 0/1 vectors 
(_PDQFaissIndex.search, pdq_index2.py lines 226-243, with faiss and
convert_pdq_strings_to_ndarray not in src). Spec section 4.4: exact range
search returning every stored id whose true Hamming distance to the query is
within the bound; the source searches with radius threshold + 1, strict, so a
hit satisfies distance < threshold + 1. Ids are the dense insertion
positions. -/
def searchVecsFrom (q : List Bool) (threshold : Int) :
    List (List Bool) → Nat → List (Nat × Nat)
  | [], _ => []
  | v :: rest, i =>
    (if (hamming q v : Int) < threshold + 1 then [(i, hamming q v)] else []) ++
      searchVecsFrom q threshold rest (i + 1)

/-- Backend search over the whole stored set, ids from 0. -/
def searchVecs (stored : List (List Bool)) (q : List Bool) (threshold : Int) :
    List (Nat × Nat) :=
  searchVecsFrom q threshold stored 0

/-- Source _PDQFaissIndex.search for a single hex query: decode then range
search. Decoding failure (the Python raises inside
convert_pdq_strings_to_ndarray) is modelled as none. -/
def PDQIndex2.searchHex (s : PDQIndex2State M) (q : String) :
    Option (List (Nat × Nat)) :=
  (hex_to_binary_str q).map fun v => searchVecs s.storedVecs v s.threshold

/-- Source PDQIndex2.query lines 175-178: one backend search per transformed
hash, in order; the per-orientation hit lists are concatenated in that order.
A decoding failure anywhere aborts the whole query, as the Python exception
would. -/
def PDQIndex2.searchTransformed (s : PDQIndex2State M) :
    List String → Option (List (Nat × Nat))
  | [] => some []
  | th :: rest =>
    match PDQIndex2.searchHex s th with
    | none => none
    | some ms => (PDQIndex2.searchTransformed s rest).map (fun msr => ms ++ msr)

/-- Source PDQIndex2.query lines 180-191: the seen_ids loop. Scans the
(id, distance) stream in order; a first-seen id emits one match per metadata
entry stored at that id, carrying that first-seen distance; later occurrences
of the id are skipped. Matches are annotated here with the id they came from
(the Python match object keeps only distance and metadata). -/
def queryFold (entries : List (List M)) :
    List (Nat × Nat) → List Nat → List (Nat × Nat × M)
  | [], _ => []
  | (i, d) :: rest, seen =>
    if i ∈ seen then queryFold entries rest seen
    else
      ((entries.getD i []).map fun m => (i, d, m)) ++
        queryFold entries rest (i :: seen)

/-- First-occurrence-per-id scan of an (id, distance) stream: keeps, for each
id, the pair from its first occurrence, in stream order. -/
def firstHits : List (Nat × Nat) → List Nat → List (Nat × Nat)
  | [], _ => []
  | (i, d) :: rest, seen =>
    if i ∈ seen then firstHits rest seen
    else (i, d) :: firstHits rest (i :: seen)

/-- Source PDQIndex2.query (pdq_index2.py lines 166-193), with each match
annotated by the faiss id it was derived from. -/
def PDQIndex2.queryWithIds (s : PDQIndex2State M) (hash : String) :
    Option (List (Nat × Nat × M)) :=
  match PDQIndex2.getTransformedHashes hash with
  | none => none
  | some ths =>
    match PDQIndex2.searchTransformed s ths with
    | none => none
    | some stream => some (queryFold s.idxToEntries stream [])

/-- Source PDQIndex2.query as observable by the caller: a list of
(distance, metadata) matches. -/
def PDQIndex2.query (s : PDQIndex2State M) (hash : String) :
    Option (List (Nat × M)) :=
  (PDQIndex2.queryWithIds s hash).map (List.map fun t => (t.2.1, t.2.2))

/-- Source PDQIndex2.add_all loop body (pdq_index2.py lines 199-208) for one
(hash, entry) pair. A new hash is first added to the faiss index (where hex
decoding happens and can raise, modelled as the error before any mutation of
this item), then its entry list is appended, then the deduper records
next_id = len(_deduper). An already-present hash only appends to its entry
list. -/
def PDQIndex2.addOne (s : PDQIndex2State M) (h : String) (m : M) :
    PDQIndex2State M × Option PDQError :=
  match lookupId s.deduper h with
  | some i =>
    ({ s with idxToEntries := s.idxToEntries.set i (s.idxToEntries.getD i [] ++ [m]) },
      none)
  | none =>
    match hex_to_binary_str h with
    | none => (s, some PDQError.malformedHash)
    | some v =>
      ({ s with
          storedVecs := s.storedVecs ++ [v],
          idxToEntries := s.idxToEntries ++ [[m]],
          deduper := s.deduper ++ [(h, s.deduper.length)] },
        none)

/-- Source PDQIndex2.add_all (pdq_index2.py lines 198-208): processes pairs in
order; an error aborts the loop, leaving the mutations of the already
processed pairs in place (the Python exception does not roll back). -/
def PDQIndex2.addAll (s : PDQIndex2State M) :
    List (String × M) → PDQIndex2State M × Option PDQError
  | [] => (s, none)
  | (h, m) :: rest =>
    match PDQIndex2.addOne s h m with
    | (s2, none) => PDQIndex2.addAll s2 rest
    | (s2, some e) => (s2, some e)

/-- Source PDQIndex2.__init__ with index=None: an empty flat faiss index, an
empty deduper and entry list, and the given threshold, which is stored
without any validation. -/
def PDQIndex2.emptyState (threshold : Int) : PDQIndex2State M :=
  { threshold := threshold, deduper := [], idxToEntries := [], storedVecs := [] }

/-- Source PDQIndex2.__init__ (pdq_index2.py lines 38-57): build the empty
state then add_all the initial entries. -/
def PDQIndex2.init (threshold : Int) (entries : List (String × M)) :
    PDQIndex2State M × Option PDQError :=
  PDQIndex2.addAll (PDQIndex2.emptyState threshold) entries

/-- Source PDQIndex2.__len__: the length of _idx_to_entries. -/
def PDQIndex2.len (s : PDQIndex2State M) : Nat :=
  s.idxToEntries.length

/-- A PDQIndex2 state reached from an empty index by a sequence of add_all
batches (add is add_all of a singleton batch, pdq_index2.py line 195). On an
error the Python object survives with the partial mutations; the run keeps
that state. -/
def PDQIndex2.run (threshold : Int) (batches : List (List (String × M))) :
    PDQIndex2State M :=
  batches.foldl (fun s b => (PDQIndex2.addAll s b).1) (PDQIndex2.emptyState threshold)

/-- Converts a batch of hex hashes, failing on the first malformed one
(modelled from the spec: the matcher backend converts the whole batch before
inserting, so a malformed hash leaves the backend unchanged). -/
def hexAll : List String → Option (List (List Bool))
  | [] => some []
  | h :: rest =>
    match hex_to_binary_str h, hexAll rest with
    | some v, some vs => some (v :: vs)
    | _, _ => none

/-- Pairs stored vectors with their custom ids start, start+1, and so on, as
the source passes range(start, len) to the matcher. -/
def attachIds : List (List Bool) → Nat → List (List Bool × Nat)
  | [], _ => []
  | v :: rest, i => (v, i) :: attachIds rest (i + 1)

/-- State of a PDQIndex (pdq_index.py lines 42-46): local_id_to_entry holds
every added (hash, entry) pair in order (there is no dedup table), and the
PDQMultiHashIndex backend is modelled, per spec section 4.4, as the stored
(vector, custom id) pairs. -/
structure PDQIndexState (M : Type) where
  localIdToEntry : List (String × M)
  stored : List (List Bool × Nat)
deriving DecidableEq

/-- Source PDQIndex.add_all (pdq_index.py lines 186-194): extend
local_id_to_entry with every pair, then, when the batch is non-empty, hand the
hashes with ids range(start, new length) to the backend. The backend add is
modelled from the spec (pdq_faiss_matcher is not in src): convert the batch,
then append; a malformed hash raises after local_id_to_entry was already
extended, so the pairs stay in the entry list while the backend is
unchanged. -/
def PDQIndex.addAll (s : PDQIndexState M) (entries : List (String × M)) :
    PDQIndexState M × Option PDQError :=
  let start := s.localIdToEntry.length
  let newList := s.localIdToEntry ++ entries
  if entries.length = 0 then ({ s with localIdToEntry := newList }, none)
  else
    match hexAll (entries.map Prod.fst) with
    | none => ({ s with localIdToEntry := newList }, some PDQError.malformedHash)
    | some vs =>
      ({ localIdToEntry := newList, stored := s.stored ++ attachIds vs start },
        none)

/-- Source PDQIndex.__init__ (pdq_index.py lines 42-46): empty lists, then
add_all the initial entries. -/
def PDQIndex.init (entries : List (String × M)) :
    PDQIndexState M × Option PDQError :=
  PDQIndex.addAll { localIdToEntry := [], stored := [] } entries

/-- Source PDQIndex.__len__: the length of local_id_to_entry. -/
def PDQIndex.len (s : PDQIndexState M) : Nat :=
  s.localIdToEntry.length

/-- Source PDQIndex.get_match_threshold: 31. -/
def PDQIndex.matchThreshold : Int := 31

/-- Modelled from the spec: PDQMultiHashIndex.search_with_distance_in_result
(pdq_faiss_matcher is not in src) for one query vector. Spec section 4.4:
exact range search; every stored (vector, custom id) pair within the bound is
returned as (custom id, distance). -/
def PDQIndex.searchOne (stored : List (List Bool × Nat)) (q : List Bool)
    (threshold : Int) : List (Nat × Nat) :=
  (stored.filter (fun p => (hamming q p.1 : Int) ≤ threshold)).map
    (fun p => (p.2, hamming q p.1))

/-- A PDQIndex state reached from an empty index by a sequence of add_all
batches (add is add_all of a singleton batch, pdq_index.py line 183). -/
def PDQIndex.run (batches : List (List (String × M))) : PDQIndexState M :=
  batches.foldl (fun s b => (PDQIndex.addAll s b).1)
    { localIdToEntry := [], stored := [] }

/-- The Hamming distance of a bit string to itself is zero. -/
lemma hamming_self (v : List Bool) : hamming v v = 0 := by
  induction v with
  | nil => rfl
  | cons a t ih =>
    simp [hamming, List.countP_cons] at ih ⊢
    exact ih

/-- Decoding the hex digit of a nibble value gives the value back. -/
lemma charToNibble_nibbleToChar (b3 b2 b1 b0 : Bool) :
    charToNibble (nibbleToChar (nibVal b3 b2 b1 b0)) = some (nibVal b3 b2 b1 b0) := by
  cases b3 <;> cases b2 <;> cases b1 <;> cases b0 <;> decide

/-- The bit expansion of a nibble value gives the bits back. -/
lemma nibbleToBits_nibVal (b3 b2 b1 b0 : Bool) :
    nibbleToBits (nibVal b3 b2 b1 b0) = [b3, b2, b1, b0] := by
  cases b3 <;> cases b2 <;> cases b1 <;> cases b0 <;> decide

/-- Round-trip of the nibble layer: on a bit string of length 4k, re-decoding
the characters of the encoding recovers the nibbles, re-expanding the nibbles
recovers the bits, and there are k nibbles. -/
lemma codec_chunks : ∀ (k : Nat) (bits : List Bool), bits.length = 4 * k →
    mapCharsToNibbles ((bitsToNibbles bits).map nibbleToChar) =
        some (bitsToNibbles bits) ∧
    (bitsToNibbles bits).flatMap nibbleToBits = bits ∧
    (bitsToNibbles bits).length = k := by
  intro k
  induction k with
  | zero =>
    intro bits h
    have : bits = [] := List.length_eq_zero.mp (by omega)
    subst this
    simp [bitsToNibbles, mapCharsToNibbles]
  | succ k ih =>
    intro bits h
    rcases bits with _ | ⟨b3, bits⟩
    · simp at h
    rcases bits with _ | ⟨b2, bits⟩
    · simp at h; omega
    rcases bits with _ | ⟨b1, bits⟩
    · simp at h; omega
    rcases bits with _ | ⟨b0, bits⟩
    · simp at h; omega
    have hrest : bits.length = 4 * k := by simp at h; omega
    obtain ⟨ih1, ih2, ih3⟩ := ih bits hrest
    refine ⟨?_, ?_, ?_⟩
    · simp only [bitsToNibbles, List.map_cons, mapCharsToNibbles,
        charToNibble_nibbleToChar, ih1]
    · simp only [bitsToNibbles, List.flatMap_cons, nibbleToBits_nibVal, ih2,
        List.cons_append, List.nil_append]
    · simp [bitsToNibbles, ih3]

/-- Round-trip of the modelled codec on 256-bit strings: encoding then
decoding gives the bits back (spec section 4.1). -/
lemma hex_roundtrip (bits : List Bool) (h : bits.length = 256) :
    hex_to_binary_str (binary_str_to_hex bits) = some bits := by
  obtain ⟨h1, h2, h3⟩ := codec_chunks 64 bits (by omega)
  unfold hex_to_binary_str binary_str_to_hex
  simp only [String.data]
  rw [if_pos (by simp [h3])]
  rw [h1]
  simp [h2]

/-- The flattened bit string of any 16x16 grid has 256 bits. -/
lemma gridToBin_gridOf_length (f : Nat → Nat → Bool) :
    (gridToBin (gridOf f)).length = 256 := by
  simp only [gridToBin, gridOf, List.length_flatten, List.map_map]
  have : ((List.length ∘ fun a => List.map (fun b => f a b) (List.range 16))) =
      fun _ => 16 := by
    funext a
    simp
  rw [this]
  decide

/-- Every transformed grid re-encodes to a hex string that decodes back. -/
lemma hex_of_gridOf (f : Nat → Nat → Bool) :
    hex_to_binary_str (binary_str_to_hex (gridToBin (gridOf f))) =
      some (gridToBin (gridOf f)) :=
  hex_roundtrip _ (gridToBin_gridOf_length f)

/-- Membership in the modelled backend scan: every hit is an in-range id, its
distance is the true Hamming distance to the stored vector at that id, and it
is within the threshold. -/
lemma searchVecsFrom_mem (q : List Bool) (thr : Int) :
    ∀ (stored : List (List Bool)) (i0 : Nat) (x : Nat × Nat),
      x ∈ searchVecsFrom q thr stored i0 →
      i0 ≤ x.1 ∧ x.1 - i0 < stored.length ∧
        x.2 = hamming q (stored.getD (x.1 - i0) []) ∧ (x.2 : Int) < thr + 1 := by
  intro stored
  induction stored with
  | nil => intro i0 x hx; simp [searchVecsFrom] at hx
  | cons v rest ih =>
    intro i0 x hx
    simp only [searchVecsFrom, List.mem_append] at hx
    rcases hx with hx | hx
    · by_cases hc : (hamming q v : Int) < thr + 1
      · rw [if_pos hc] at hx
        simp at hx
        subst hx
        simp [hc]
      · rw [if_neg hc] at hx
        simp at hx
    · obtain ⟨h1, h2, h3, h4⟩ := ih (i0 + 1) x hx
      have hd : x.1 - i0 = (x.1 - (i0 + 1)) + 1 := by omega
      refine ⟨by omega, by simp only [List.length_cons]; omega, ?_, h4⟩
      rw [hd]
      simpa using h3

/-- Membership in a backend search from id 0. -/
lemma searchVecs_mem (stored : List (List Bool)) (q : List Bool) (thr : Int)
    (x : Nat × Nat) (hx : x ∈ searchVecs stored q thr) :
    x.1 < stored.length ∧ x.2 = hamming q (stored.getD x.1 []) ∧
      (x.2 : Int) ≤ thr := by
  obtain ⟨h1, h2, h3, h4⟩ := searchVecsFrom_mem q thr stored 0 x hx
  simp only [Nat.sub_zero] at h2 h3
  exact ⟨h2, h3, by omega⟩

/-- The seen_ids loop of query equals one group of matches per first-seen id,
each group listing the metadata entries of that id with the first-seen
distance. -/
lemma queryFold_eq_firstHits (entries : List (List M)) :
    ∀ (l : List (Nat × Nat)) (seen : List Nat),
      queryFold entries l seen =
        (firstHits l seen).flatMap
          (fun p => (entries.getD p.1 []).map fun m => (p.1, p.2, m)) := by
  intro l
  induction l with
  | nil => intro seen; simp [queryFold, firstHits]
  | cons x rest ih =>
    intro seen
    obtain ⟨i, d⟩ := x
    by_cases hc : i ∈ seen
    · simp only [queryFold, firstHits, if_pos hc]
      exact ih seen
    · simp only [queryFold, firstHits, if_neg hc, List.flatMap_cons]
      rw [ih (i :: seen)]

/-- Every first hit comes from the scanned stream. -/
lemma firstHits_mem :
    ∀ (l : List (Nat × Nat)) (seen : List Nat) (x : Nat × Nat),
      x ∈ firstHits l seen → x ∈ l := by
  intro l
  induction l with
  | nil => intro seen x hx; simp [firstHits] at hx
  | cons y rest ih =>
    intro seen x hx
    obtain ⟨i, d⟩ := y
    by_cases hc : i ∈ seen
    · rw [firstHits, if_pos hc] at hx
      exact List.mem_cons_of_mem _ (ih _ x hx)
    · rw [firstHits, if_neg hc] at hx
      rcases List.mem_cons.mp hx with hx | hx
      · exact hx ▸ List.mem_cons_self _ _
      · exact List.mem_cons_of_mem _ (ih _ x hx)

/-- No first hit carries an id that was already seen. -/
lemma firstHits_not_seen :
    ∀ (l : List (Nat × Nat)) (seen : List Nat) (x : Nat × Nat),
      x ∈ firstHits l seen → x.1 ∉ seen := by
  intro l
  induction l with
  | nil => intro seen x hx; simp [firstHits] at hx
  | cons y rest ih =>
    intro seen x hx
    obtain ⟨i, d⟩ := y
    by_cases hc : i ∈ seen
    · rw [firstHits, if_pos hc] at hx
      exact ih _ x hx
    · rw [firstHits, if_neg hc] at hx
      rcases List.mem_cons.mp hx with hx | hx
      · subst hx; exact hc
      · intro hmem
        exact ih _ x hx (List.mem_cons_of_mem _ hmem)

/-- The ids of the first-hit scan are pairwise distinct. -/
lemma firstHits_nodup :
    ∀ (l : List (Nat × Nat)) (seen : List Nat),
      ((firstHits l seen).map Prod.fst).Nodup := by
  intro l
  induction l with
  | nil => intro seen; simp [firstHits]
  | cons y rest ih =>
    intro seen
    obtain ⟨i, d⟩ := y
    by_cases hc : i ∈ seen
    · rw [firstHits, if_pos hc]
      exact ih seen
    · rw [firstHits, if_neg hc]
      simp only [List.map_cons, List.nodup_cons]
      refine ⟨?_, ih (i :: seen)⟩
      intro hmem
      obtain ⟨x, hx, hfst⟩ := List.mem_map.mp hmem
      exact firstHits_not_seen _ _ x hx (hfst ▸ List.mem_cons_self _ _)

/-- A stream whose ids were all seen already produces no first hit. -/
lemma firstHits_all_seen :
    ∀ (l : List (Nat × Nat)) (seen : List Nat),
      (∀ x ∈ l, x.1 ∈ seen) → firstHits l seen = [] := by
  intro l
  induction l with
  | nil => intro seen _; rfl
  | cons y rest ih =>
    intro seen hall
    obtain ⟨i, d⟩ := y
    rw [firstHits, if_pos (hall (i, d) (List.mem_cons_self _ _))]
    exact ih seen fun x hx => hall x (List.mem_cons_of_mem _ hx)

/-- Unfolding one orientation of the per-transform search loop. -/
lemma searchTransformed_cons (s : PDQIndex2State M) (th : String)
    (rest : List String) (ms : List (Nat × Nat)) (msr : List (Nat × Nat))
    (h1 : PDQIndex2.searchHex s th = some ms)
    (h2 : PDQIndex2.searchTransformed s rest = some msr) :
    PDQIndex2.searchTransformed s (th :: rest) = some (ms ++ msr) := by
  simp [PDQIndex2.searchTransformed, h1, h2]

/-- When every orientation decodes, the search loop succeeds, and every
element of the produced stream is a hit of one orientation's backend
search. -/
lemma searchTransformed_some (s : PDQIndex2State M) :
    ∀ (ths : List String),
      (∀ th ∈ ths, ∃ v, hex_to_binary_str th = some v) →
      ∃ stream, PDQIndex2.searchTransformed s ths = some stream ∧
        ∀ x ∈ stream, ∃ th ∈ ths, ∃ v, hex_to_binary_str th = some v ∧
          x ∈ searchVecs s.storedVecs v s.threshold := by
  intro ths
  induction ths with
  | nil => intro _; exact ⟨[], rfl, by simp⟩
  | cons th rest ih =>
    intro hall
    obtain ⟨v, hv⟩ := hall th (List.mem_cons_self _ _)
    obtain ⟨msr, hmsr, hmem⟩ := ih fun t ht => hall t (List.mem_cons_of_mem _ ht)
    refine ⟨searchVecs s.storedVecs v s.threshold ++ msr, ?_, ?_⟩
    · exact searchTransformed_cons s th rest _ msr
        (by simp [PDQIndex2.searchHex, hv]) hmsr
    · intro x hx
      rcases List.mem_append.mp hx with hx | hx
      · exact ⟨th, List.mem_cons_self _ _, v, hv, hx⟩
      · obtain ⟨t, ht, w, hw, hxw⟩ := hmem x hx
        exact ⟨t, List.mem_cons_of_mem _ ht, w, hw, hxw⟩

/-- Every element of a successful search-loop stream is a hit of one
orientation. -/
lemma searchTransformed_mem (s : PDQIndex2State M) :
    ∀ (ths : List String) (stream : List (Nat × Nat)),
      PDQIndex2.searchTransformed s ths = some stream →
      ∀ x ∈ stream, ∃ th ∈ ths, ∃ v, hex_to_binary_str th = some v ∧
        x ∈ searchVecs s.storedVecs v s.threshold := by
  intro ths
  induction ths with
  | nil =>
    intro stream hs x hx
    simp [PDQIndex2.searchTransformed] at hs
    subst hs
    simp at hx
  | cons th rest ih =>
    intro stream hs x hx
    simp only [PDQIndex2.searchTransformed] at hs
    rcases hms : PDQIndex2.searchHex s th with _ | ms
    · rw [hms] at hs; simp at hs
    rcases hmsr : PDQIndex2.searchTransformed s rest with _ | msr
    · rw [hms, hmsr] at hs; simp at hs
    rw [hms, hmsr] at hs
    simp at hs
    subst hs
    rcases List.mem_append.mp hx with hx | hx
    · simp only [PDQIndex2.searchHex] at hms
      rcases hv : hex_to_binary_str th with _ | v
      · rw [hv] at hms; simp at hms
      rw [hv] at hms
      simp at hms
      exact ⟨th, List.mem_cons_self _ _, v, hv, hms ▸ hx⟩
    · obtain ⟨t, ht, w, hw, hxw⟩ := ih msr hmsr x hx
      exact ⟨t, List.mem_cons_of_mem _ ht, w, hw, hxw⟩

/-- The state invariant of PDQIndex2 (spec section 3): the dedup table, the
entry lists and the backend have equal size; every hash in the dedup table
decodes and its vector is stored at its id; entry lists are non-empty. -/
def PDQIndex2.Inv (s : PDQIndex2State M) : Prop :=
  s.deduper.length = s.idxToEntries.length ∧
  s.idxToEntries.length = s.storedVecs.length ∧
  (∀ p ∈ s.deduper,
    ∃ v, hex_to_binary_str p.1 = some v ∧ s.storedVecs[p.2]? = some v) ∧
  (∀ e ∈ s.idxToEntries, e ≠ [])

/-- A successful dict lookup means the pair is in the dict. -/
lemma lookupId_mem (d : List (String × Nat)) (h : String) (i : Nat)
    (hl : lookupId d h = some i) : (h, i) ∈ d := by
  simp only [lookupId, Option.map_eq_some'] at hl
  obtain ⟨p, hp, hpi⟩ := hl
  have hmem := List.mem_of_find?_eq_some hp
  have hpred := List.find?_some hp
  simp only [beq_iff_eq] at hpred
  obtain ⟨p1, p2⟩ := p
  simp only at hpred hpi
  subst hpred
  subst hpi
  exact hmem

/-- Processing one (hash, entry) pair preserves the state invariant. -/
lemma Inv_addOne (s : PDQIndex2State M) (h : String) (m : M)
    (hInv : PDQIndex2.Inv s) : PDQIndex2.Inv (PDQIndex2.addOne s h m).1 := by
  obtain ⟨h1, h2, h3, h4⟩ := hInv
  simp only [PDQIndex2.addOne]
  rcases hl : lookupId s.deduper h with _ | i
  · rcases hv : hex_to_binary_str h with _ | v
    · exact ⟨h1, h2, h3, h4⟩
    · refine ⟨?_, ?_, ?_, ?_⟩
      · simp [h1]
      · simp [h2]
      · intro p hp
        rcases List.mem_append.mp hp with hp | hp
        · obtain ⟨w, hw1, hw2⟩ := h3 p hp
          refine ⟨w, hw1, ?_⟩
          have hlt : p.2 < s.storedVecs.length := by
            obtain ⟨hp2, _⟩ := List.getElem?_eq_some_iff.mp hw2
            exact hp2
          rw [List.getElem?_append_left hlt]
          exact hw2
        · simp only [List.mem_singleton] at hp
          subst hp
          refine ⟨v, hv, ?_⟩
          have : s.deduper.length = s.storedVecs.length := by omega
          rw [this]
          exact List.getElem?_concat_length s.storedVecs v
      · intro e he
        rcases List.mem_append.mp he with he | he
        · exact h4 e he
        · simp only [List.mem_singleton] at he
          subst he
          simp
  · refine ⟨?_, ?_, ?_, ?_⟩
    · simp [h1]
    · simp [h2]
    · exact h3
    · intro e he
      rcases List.mem_or_eq_of_mem_set he with he | he
      · exact h4 e he
      · subst he
        simp

/-- A whole add_all batch preserves the state invariant, also when it stops
at a malformed hash. -/
lemma Inv_addAll (l : List (String × M)) :
    ∀ s : PDQIndex2State M, PDQIndex2.Inv s →
      PDQIndex2.Inv (PDQIndex2.addAll s l).1 := by
  induction l with
  | nil => intro s h; exact h
  | cons p rest ih =>
    intro s h
    obtain ⟨hh, m⟩ := p
    have h2 := Inv_addOne s hh m h
    simp only [PDQIndex2.addAll]
    rcases ha : PDQIndex2.addOne s hh m with ⟨s2, e⟩
    rw [ha] at h2
    rcases e with _ | e
    · exact ih s2 h2
    · exact h2

/-- The empty index satisfies the invariant. -/
lemma Inv_empty (t : Int) : PDQIndex2.Inv (PDQIndex2.emptyState (M := M) t) := by
  refine ⟨rfl, rfl, ?_, ?_⟩ <;> intro p hp <;> simp [PDQIndex2.emptyState] at hp

/-- Every state reached from an empty index by add_all batches satisfies the
invariant. -/
lemma Inv_run (t : Int) (bs : List (List (String × M))) :
    PDQIndex2.Inv (PDQIndex2.run t bs) := by
  unfold PDQIndex2.run
  have hbase := Inv_empty (M := M) t
  revert hbase
  generalize PDQIndex2.emptyState t = s0
  induction bs generalizing s0 with
  | nil => intro h; exact h
  | cons b rest ih =>
    intro h
    exact ih _ (Inv_addAll b s0 h)

/-- A 64-hex-char hash whose 16x16 grid has a single one-bit at row 0,
column 1; all its 8 dihedral images are pairwise distinct. -/
def c1FailingInput : String :=
  "4000000000000000000000000000000000000000000000000000000000000000"

/-- A 64-hex-char hash whose 16x16 grid has a single one-bit at row 0,
column 2; all its 8 dihedral images are pairwise distinct. -/
def c2FailingInput : String :=
  "2000000000000000000000000000000000000000000000000000000000000000"

/-- A valid 64-hex-char hash: 32 f characters then 32 zeros. -/
def testHashA : String :=
  "ffffffffffffffffffffffffffffffff00000000000000000000000000000000"

/-- An invalid hash input (not 64 hex characters), as in spec scenario S6. -/
def badHash : String := "zz"

/-- C1: claimed, the 8 outputs of the transform stage contain the image of
the hash under each of the 8 dihedral transforms and form a D4-closed set.
At the failing input the code's list omits both diagonal reflections
(flip-h composed with a rotation), so the claim fails: the composition slots
hold plain rotations instead. The transform stage exists and returns a list,
but the two diagonal-reflection images are not in it. -/
theorem c1_transform_set_not_d4_closed :
    (PDQIndex2.getTransformedHashes c1FailingInput).isSome = true ∧
    binary_str_to_hex
        (specFlipHThenR90 ((hex_to_binary_str c1FailingInput).getD [])) ∉
      (PDQIndex2.getTransformedHashes c1FailingInput).getD [] ∧
    binary_str_to_hex
        (specFlipHThenR270 ((hex_to_binary_str c1FailingInput).getD [])) ∉
      (PDQIndex2.getTransformedHashes c1FailingInput).getD [] := by
  decide

/-- C2: claimed, element 6 of the transform list is flip-h then rotate 90
(out[a][b] = in[15-b][15-a]) and element 7 is flip-h then rotate 270
(out[a][b] = in[b][a]). At the failing input element 6 is the plain 270
degree rotation and element 7 the plain 90 degree rotation, and neither
equals the claimed diagonal reflection. -/
theorem c2_composition_slots_are_plain_rotations :
    ((PDQIndex2.getTransformedHashes c2FailingInput).getD []).getD 6 ("") =
        binary_str_to_hex
          (specRotate270 ((hex_to_binary_str c2FailingInput).getD [])) ∧
    ((PDQIndex2.getTransformedHashes c2FailingInput).getD []).getD 6 ("") ≠
        binary_str_to_hex
          (specFlipHThenR90 ((hex_to_binary_str c2FailingInput).getD [])) ∧
    ((PDQIndex2.getTransformedHashes c2FailingInput).getD []).getD 7 ("") =
        binary_str_to_hex
          (specRotate90 ((hex_to_binary_str c2FailingInput).getD [])) ∧
    ((PDQIndex2.getTransformedHashes c2FailingInput).getD []).getD 7 ("") ≠
        binary_str_to_hex
          (specFlipHThenR270 ((hex_to_binary_str c2FailingInput).getD [])) := by
  decide

/-- C9: the transform stages of PDQIndex and PDQIndex2 are extensionally
equal; the two method bodies are textually identical. -/
theorem c9_transform_stages_equal (h : String) :
    PDQIndex.getTransformedHashes h = PDQIndex2.getTransformedHashes h := rfl

/-- C8: after every sequence of add / add_all batches on a PDQIndex2 created
empty, the dedup table, entry lists and backend have equal size, every hash
in the dedup table has its vector stored at its id, and every entry list is
non-empty. -/
theorem c8_state_invariant (M : Type) (t : Int)
    (bs : List (List (String × M))) : PDQIndex2.Inv (PDQIndex2.run t bs) :=
  Inv_run t bs

/-- Neither addOne branch changes the stored threshold. -/
lemma addOne_threshold (s : PDQIndex2State M) (h : String) (m : M) :
    (PDQIndex2.addOne s h m).1.threshold = s.threshold := by
  simp only [PDQIndex2.addOne]
  rcases lookupId s.deduper h with _ | i
  · rcases hex_to_binary_str h with _ | v <;> rfl
  · rfl

/-- add_all never changes the stored threshold. -/
lemma addAll_threshold (l : List (String × M)) :
    ∀ s : PDQIndex2State M, (PDQIndex2.addAll s l).1.threshold = s.threshold := by
  induction l with
  | nil => intro s; rfl
  | cons p rest ih =>
    intro s
    obtain ⟨h, m⟩ := p
    have ht := addOne_threshold s h m
    simp only [PDQIndex2.addAll]
    rcases ha : PDQIndex2.addOne s h m with ⟨s2, e⟩
    rw [ha] at ht
    rcases e with _ | e
    · rw [ih s2]; exact ht
    · exact ht

/-- C6 counterexample: constructing a PDQIndex2 with threshold 300, outside
[0, 256], succeeds with no error; there is no InvalidThreshold check. -/
theorem c6_construction_accepts_300 :
    PDQIndex2.init (M := Nat) 300 [] =
      ({ threshold := 300, deduper := [], idxToEntries := [],
         storedVecs := [] }, none) := rfl

/-- C6 amended: construction performs no threshold validation; it succeeds
for every integer threshold, storing it unchanged. -/
theorem c6_no_threshold_validation (M : Type) (t : Int)
    (entries : List (String × M)) :
    (PDQIndex2.init t entries).1.threshold = t ∧
      (PDQIndex2.init (M := M) t []).2 = none :=
  ⟨addAll_threshold entries (PDQIndex2.emptyState t), rfl⟩

/-- C3 counterexample: PDQIndex (pdq_index.py) has no dedup table; adding the
same hash twice gives len 2, not the claimed 1. -/
theorem c3_pdqindex_does_not_dedup :
    PDQIndex.len (PDQIndex.init (M := Nat) [(testHashA, 1), (testHashA, 2)]).1 = 2 ∧
    PDQIndex.len (PDQIndex.init (M := Nat) [(testHashA, 1), (testHashA, 2)]).1 ≠ 1 := by
  decide

/-- C4 counterexample: an add_all batch on PDQIndex2 whose second pair is
malformed raises MalformedHash but keeps the mutation made for the first
pair; the index state is not what it was before the call. -/
theorem c4_partial_mutation_persists :
    (PDQIndex2.addAll (PDQIndex2.emptyState (M := Nat) 31)
        [(testHashA, 1), (badHash, 2)]).2 = some PDQError.malformedHash ∧
    (PDQIndex2.addAll (PDQIndex2.emptyState (M := Nat) 31)
        [(testHashA, 1), (badHash, 2)]).1 ≠ PDQIndex2.emptyState 31 := by
  decide

/-- Shape of every successful query: the transform stage and the search loop
succeeded, and the result is one group of matches per first-seen id of the
hit stream. -/
lemma queryWithIds_shape (s : PDQIndex2State M) (h : String)
    (l : List (Nat × Nat × M)) (hq : PDQIndex2.queryWithIds s h = some l) :
    ∃ ths stream,
      PDQIndex2.getTransformedHashes h = some ths ∧
      PDQIndex2.searchTransformed s ths = some stream ∧
      l = (firstHits stream []).flatMap
        (fun p => (s.idxToEntries.getD p.1 []).map fun m => (p.1, p.2, m)) := by
  rw [PDQIndex2.queryWithIds] at hq
  rcases hths : PDQIndex2.getTransformedHashes h with _ | ths
  · rw [hths] at hq
    simp at hq
  · rw [hths] at hq
    simp only [] at hq
    rcases hstr : PDQIndex2.searchTransformed s ths with _ | stream
    · rw [hstr] at hq
      simp at hq
    · rw [hstr] at hq
      simp only [] at hq
      have hq2 : queryFold s.idxToEntries stream [] = l := Option.some_inj.mp hq
      refine ⟨ths, stream, rfl, hstr, ?_⟩
      rw [← hq2]
      exact queryFold_eq_firstHits s.idxToEntries stream []

/-- C5: every successful query result is a concatenation of one group per
first-seen id, in first-hit order: the group of id i lists one match per
metadata entry stored at i, all carrying the distance of the first
orientation hit on i, and the group ids are pairwise distinct, so no two
matches are derived from the same (id, metadata-entry) pair. -/
theorem c5_query_dedups_ids (M : Type) (s : PDQIndex2State M) (h : String)
    (l : List (Nat × Nat × M)) (hq : PDQIndex2.queryWithIds s h = some l) :
    ∃ ths stream,
      PDQIndex2.getTransformedHashes h = some ths ∧
      PDQIndex2.searchTransformed s ths = some stream ∧
      ((firstHits stream []).map Prod.fst).Nodup ∧
      l = (firstHits stream []).flatMap
        (fun p => (s.idxToEntries.getD p.1 []).map fun m => (p.1, p.2, m)) := by
  obtain ⟨ths, stream, hths, hstr, hl⟩ := queryWithIds_shape s h l hq
  exact ⟨ths, stream, hths, hstr, firstHits_nodup stream [], hl⟩

/-- C7: every match of a successful query carries a distance within the
configured threshold, and that distance is the true Hamming distance between
some transformed query hash and the stored vector at the hit id. -/
theorem c7_distances_true_and_bounded (M : Type) (s : PDQIndex2State M)
    (h : String) (l : List (Nat × Nat × M))
    (hq : PDQIndex2.queryWithIds s h = some l) :
    ∀ x ∈ l, (x.2.1 : Int) ≤ s.threshold ∧
      ∃ ths th v, PDQIndex2.getTransformedHashes h = some ths ∧ th ∈ ths ∧
        hex_to_binary_str th = some v ∧
        x.2.1 = hamming v (s.storedVecs.getD x.1 []) := by
  obtain ⟨ths, stream, hths, hstr, hl⟩ := queryWithIds_shape s h l hq
  intro x hx
  rw [hl] at hx
  obtain ⟨p, hp, hxp⟩ := List.mem_flatMap.mp hx
  obtain ⟨m, _, hxm⟩ := List.mem_map.mp hxp
  have hps : p ∈ stream := firstHits_mem stream [] p hp
  obtain ⟨th, hth, v, hv, hpv⟩ := searchTransformed_mem s ths stream hstr p hps
  obtain ⟨hlt, hd, hbound⟩ := searchVecs_mem s.storedVecs v s.threshold p hpv
  subst hxm
  exact ⟨hbound, ths, th, v, hths, hth, hv, hd⟩

/-- Ids attached to a converted batch are bounded by start + batch size. -/
lemma attachIds_mem :
    ∀ (vs : List (List Bool)) (i0 : Nat) (p : List Bool × Nat),
      p ∈ attachIds vs i0 → p.2 < i0 + vs.length := by
  intro vs
  induction vs with
  | nil => intro i0 p hp; simp [attachIds] at hp
  | cons v rest ih =>
    intro i0 p hp
    rcases List.mem_cons.mp hp with hp | hp
    · subst hp; simp
    · have := ih (i0 + 1) p hp
      simp only [List.length_cons]
      omega

/-- A successfully converted batch has as many vectors as hashes. -/
lemma hexAll_length :
    ∀ (l : List String) (vs : List (List Bool)), hexAll l = some vs →
      vs.length = l.length := by
  intro l
  induction l with
  | nil => intro vs h; simp [hexAll] at h; simp [← h]
  | cons x rest ih =>
    intro vs h
    simp only [hexAll] at h
    rcases hx : hex_to_binary_str x with _ | v
    · rw [hx] at h; simp at h
    rcases hr : hexAll rest with _ | ws
    · rw [hx, hr] at h; simp at h
    rw [hx, hr] at h
    simp only [Option.some_inj] at h
    subst h
    simp [ih ws hr]

/-- Backend-id invariant of PDQIndex: every stored custom id is an in-range
position of local_id_to_entry. -/
def PDQIndex.InvIds (s : PDQIndexState M) : Prop :=
  ∀ p ∈ s.stored, p.2 < s.localIdToEntry.length

/-- add_all preserves the PDQIndex backend-id invariant, in the empty-batch,
malformed-batch and successful cases alike. -/
lemma InvIds_addAll (s : PDQIndexState M) (entries : List (String × M))
    (hInv : PDQIndex.InvIds s) :
    PDQIndex.InvIds (PDQIndex.addAll s entries).1 := by
  simp only [PDQIndex.addAll]
  by_cases hz : entries.length = 0
  · rw [if_pos hz]
    intro p hp
    have := hInv p hp
    simp only [List.length_append]
    omega
  · rw [if_neg hz]
    rcases hh : hexAll (entries.map Prod.fst) with _ | vs
    · intro p hp
      have := hInv p hp
      simp only [List.length_append]
      omega
    · intro p hp
      simp only [List.length_append]
      rcases List.mem_append.mp hp with hp | hp
      · have := hInv p hp
        omega
      · have hb := attachIds_mem vs s.localIdToEntry.length p hp
        have hl := hexAll_length (entries.map Prod.fst) vs hh
        simp only [List.length_map] at hl
        omega

/-- Every PDQIndex state reached from empty satisfies the backend-id
invariant. -/
lemma InvIds_run (bs : List (List (String × M))) :
    PDQIndex.InvIds (PDQIndex.run bs) := by
  unfold PDQIndex.run
  have hbase : PDQIndex.InvIds
      ({ localIdToEntry := [], stored := [] } : PDQIndexState M) := by
    intro p hp
    simp at hp
  revert hbase
  generalize ({ localIdToEntry := [], stored := [] } : PDQIndexState M) = s0
  induction bs generalizing s0 with
  | nil => intro h; exact h
  | cons b rest ih =>
    intro h
    exact ih _ (InvIds_addAll s0 b h)

/-- Every hit of the PDQIndex backend search carries a stored custom id. -/
lemma searchOne_mem (stored : List (List Bool × Nat)) (q : List Bool)
    (thr : Int) (y : Nat × Nat) (hy : y ∈ PDQIndex.searchOne stored q thr) :
    ∃ p ∈ stored, p.2 = y.1 := by
  simp only [PDQIndex.searchOne] at hy
  obtain ⟨p, hp, hpy⟩ := List.mem_map.mp hy
  exact ⟨p, List.mem_of_mem_filter hp, by rw [← hpy]⟩

/-- C10: on any index built from empty by add / add_all batches, every id
returned by a backend search (a PDQIndex2 faiss range search with the
configured threshold, or a PDQIndex matcher search) is an in-range position
of the entry list, so the metadata lookup inside query cannot go out of
range. -/
theorem c10_search_ids_in_range (M : Type) (t : Int)
    (bs bs1 : List (List (String × M))) (q v : List Bool) (x y : Nat × Nat)
    (hx : x ∈ searchVecs (PDQIndex2.run t bs).storedVecs q
      (PDQIndex2.run t bs).threshold)
    (hy : y ∈ PDQIndex.searchOne (PDQIndex.run bs1).stored v
      PDQIndex.matchThreshold) :
    x.1 < (PDQIndex2.run t bs).idxToEntries.length ∧
      y.1 < (PDQIndex.run bs1).localIdToEntry.length := by
  constructor
  · obtain ⟨hlt, _, _⟩ := searchVecs_mem _ _ _ x hx
    obtain ⟨h1, h2, _, _⟩ := Inv_run (M := M) t bs
    omega
  · obtain ⟨p, hp, hpy⟩ := searchOne_mem _ _ _ y hy
    have := InvIds_run (M := M) bs1 p hp
    omega

/-- Adding further copies of an already-stored hash only appends to its entry
list; deduper and backend stay untouched. -/
lemma addAll_same_hash_aux (h : String) (t : Int) (v : List Bool) :
    ∀ (ms : List M) (acc : List M),
      PDQIndex2.addAll
        { threshold := t, deduper := [(h, 0)], idxToEntries := [acc],
          storedVecs := [v] } (ms.map fun x => (h, x)) =
      ({ threshold := t, deduper := [(h, 0)], idxToEntries := [acc ++ ms],
         storedVecs := [v] }, none) := by
  intro ms
  induction ms with
  | nil => intro acc; simp [PDQIndex2.addAll]
  | cons m ms ih =>
    intro acc
    have hlk : lookupId [(h, 0)] h = some 0 := by
      simp [lookupId, List.find?_cons_of_pos]
    simp only [List.map_cons, PDQIndex2.addAll, PDQIndex2.addOne, hlk]
    simp only [List.getD_cons_zero, List.set_cons_zero]
    have := ih (acc ++ [m])
    simp only [this]
    simp [List.append_assoc]

/-- The state reached by add_all of N copies of one valid hash from an empty
index: one deduper pair, one entry list holding all N payloads in order, one
stored vector. -/
lemma addAll_same_hash (h : String) (t : Int) (v : List Bool) (m : M)
    (ms : List M) (hv : hex_to_binary_str h = some v) :
    PDQIndex2.addAll (PDQIndex2.emptyState t) ((m :: ms).map fun x => (h, x)) =
      ({ threshold := t, deduper := [(h, 0)], idxToEntries := [m :: ms],
         storedVecs := [v] }, none) := by
  have hlk : lookupId ([] : List (String × Nat)) h = none := rfl
  simp only [List.map_cons, PDQIndex2.addAll, PDQIndex2.addOne,
    PDQIndex2.emptyState, hlk, hv]
  simp only [List.nil_append]
  simp only [List.length_nil]
  have := addAll_same_hash_aux (M := M) h t v ms [m]
  simp only [this]
  simp [List.singleton_append]

/-- Evaluation of a query on an index holding exactly one stored hash,
queried with that hash: the identity orientation hits id 0 at distance 0,
every later hit can only be on id 0 and is suppressed by seen_ids, so the
result is one match per stored entry, each at distance 0. -/
lemma queryWithIds_single (h : String) (t : Int) (v : List Bool) (es : List M)
    (hv : hex_to_binary_str h = some v) (ht : (0 : Int) < t + 1) :
    PDQIndex2.queryWithIds
      { threshold := t, deduper := [(h, 0)], idxToEntries := [es],
        storedVecs := [v] } h = some (es.map fun m => (0, 0, m)) := by
  have hths : PDQIndex2.getTransformedHashes h =
      some (h :: ([rotated_90 (toGrid v), rotated_180 (toGrid v),
        rotated_270 (toGrid v), flipped_h (toGrid v), flipped_v (toGrid v),
        flipped_h_90 (toGrid v), flipped_h_270 (toGrid v)].map
          fun g => binary_str_to_hex (gridToBin g))) := by
    simp [PDQIndex2.getTransformedHashes, hv]
  have hdec : ∀ th ∈ ([rotated_90 (toGrid v), rotated_180 (toGrid v),
      rotated_270 (toGrid v), flipped_h (toGrid v), flipped_v (toGrid v),
      flipped_h_90 (toGrid v), flipped_h_270 (toGrid v)].map
        fun g => binary_str_to_hex (gridToBin g)),
      ∃ w, hex_to_binary_str th = some w := by
    intro th hth
    simp only [List.mem_map] at hth
    obtain ⟨g, hg, rfl⟩ := hth
    simp only [List.mem_cons, List.not_mem_nil, or_false] at hg
    rcases hg with rfl | rfl | rfl | rfl | rfl | rfl | rfl <;>
      exact ⟨_, hex_of_gridOf _⟩
  obtain ⟨junk, hjunkeq, hjunkmem⟩ := searchTransformed_some
    (s := { threshold := t, deduper := [(h, 0)], idxToEntries := [es],
            storedVecs := [v] }) _ hdec
  have hid0 : ∀ x ∈ junk, x.1 ∈ [(0 : Nat)] := by
    intro x hx
    obtain ⟨th, _, w, _, hxw⟩ := hjunkmem x hx
    obtain ⟨hlt, _, _⟩ := searchVecs_mem _ _ _ x hxw
    simp only [List.length_singleton] at hlt
    simp only [List.mem_singleton]
    omega
  have h0 : ((hamming v v : Nat) : Int) < t + 1 := by
    rw [hamming_self]
    simpa using ht
  have hsearchh : PDQIndex2.searchHex
      { threshold := t, deduper := [(h, 0)], idxToEntries := [es],
        storedVecs := [v] } h = some [(0, 0)] := by
    simp only [PDQIndex2.searchHex, hv, Option.map_some']
    simp only [searchVecs, searchVecsFrom, if_pos h0]
    simp [hamming_self]
  have hstream := searchTransformed_cons
    (s := { threshold := t, deduper := [(h, 0)], idxToEntries := [es],
            storedVecs := [v] }) h _ [(0, 0)] junk hsearchh hjunkeq
  have hfh : firstHits ([((0 : Nat), (0 : Nat))] ++ junk) [] = [(0, 0)] := by
    rw [List.singleton_append, firstHits, if_neg (by simp)]
    rw [firstHits_all_seen junk [0] hid0]
  rw [PDQIndex2.queryWithIds, hths]
  simp only []
  rw [hstream]
  simp only []
  rw [queryFold_eq_firstHits, hfh]
  simp

/-- C3 (amended to PDQIndex2): adding the same valid hash N times with
payloads m1..mN to an empty PDQIndex2 succeeds, gives len 1, and a single
query on the hash returns exactly the N payloads, each at distance 0. -/
theorem c3_pdqindex2_dedups (M : Type) (h : String) (v : List Bool) (m : M)
    (ms : List M) (hv : hex_to_binary_str h = some v) :
    (PDQIndex2.init PDQ_CONFIDENT_MATCH_THRESHOLD
        ((m :: ms).map fun x => (h, x))).2 = none ∧
    PDQIndex2.len (PDQIndex2.init PDQ_CONFIDENT_MATCH_THRESHOLD
        ((m :: ms).map fun x => (h, x))).1 = 1 ∧
    PDQIndex2.query (PDQIndex2.init PDQ_CONFIDENT_MATCH_THRESHOLD
        ((m :: ms).map fun x => (h, x))).1 h =
      some ((m :: ms).map fun x => ((0 : Nat), x)) := by
  have hstate := addAll_same_hash (M := M) h PDQ_CONFIDENT_MATCH_THRESHOLD v m
    ms hv
  unfold PDQIndex2.init
  rw [hstate]
  refine ⟨rfl, rfl, ?_⟩
  have hq := queryWithIds_single (M := M) h PDQ_CONFIDENT_MATCH_THRESHOLD v
    (m :: ms) hv (by norm_num [PDQ_CONFIDENT_MATCH_THRESHOLD])
  simp only [PDQIndex2.query, hq, Option.map_some']
  simp [List.map_map, Function.comp]

/-- add_all distributes over append when the first part succeeds. -/
lemma addAll_append (l1 l2 : List (String × M)) :
    ∀ s : PDQIndex2State M, (PDQIndex2.addAll s l1).2 = none →
      PDQIndex2.addAll s (l1 ++ l2) =
        PDQIndex2.addAll (PDQIndex2.addAll s l1).1 l2 := by
  induction l1 with
  | nil => intro s _; rfl
  | cons p rest ih =>
    intro s hsome
    obtain ⟨h, m⟩ := p
    rw [List.cons_append]
    simp only [PDQIndex2.addAll] at hsome ⊢
    rcases ha : PDQIndex2.addOne s h m with ⟨s2, e⟩
    rw [ha] at hsome
    rcases e with _ | e
    · simp only [] at hsome ⊢
      exact ih s2 hsome
    · simp only [] at hsome
      exact absurd hsome (by simp)

/-- A hash that does not decode cannot be a key of the dedup table of any
state satisfying the invariant. -/
lemma lookupId_none_of_bad (s : PDQIndex2State M) (hInv : PDQIndex2.Inv s)
    (h : String) (hbad : hex_to_binary_str h = none) :
    lookupId s.deduper h = none := by
  rcases hl : lookupId s.deduper h with _ | i
  · rfl
  · exfalso
    obtain ⟨_, _, h3, _⟩ := hInv
    obtain ⟨w, hw, _⟩ := h3 (h, i) (lookupId_mem s.deduper h i hl)
    rw [hbad] at hw
    exact Option.noConfusion hw

/-- C4 (amended): on an invariant-satisfying index, an add_all batch whose
pairs after some successful prefix start with a malformed hash stops with
MalformedHash exactly at that pair: the mutations of the prefix persist, the
offending pair and the rest are not applied. A query on a malformed hash
fails and, being a pure read, changes no state. -/
theorem c4_fail_fast_with_partial_effect (M : Type) (s : PDQIndex2State M)
    (pre rest : List (String × M)) (h : String) (m : M)
    (hInv : PDQIndex2.Inv s)
    (hpre : (PDQIndex2.addAll s pre).2 = none)
    (hbad : hex_to_binary_str h = none) :
    PDQIndex2.addAll s (pre ++ (h, m) :: rest) =
      ((PDQIndex2.addAll s pre).1, some PDQError.malformedHash) ∧
    PDQIndex2.query (PDQIndex2.addAll s pre).1 h = none := by
  have hInv1 := Inv_addAll pre s hInv
  have hlk := lookupId_none_of_bad _ hInv1 h hbad
  constructor
  · rw [addAll_append pre ((h, m) :: rest) s hpre]
    simp only [PDQIndex2.addAll, PDQIndex2.addOne, hlk, hbad]
  · simp [PDQIndex2.query, PDQIndex2.queryWithIds,
      PDQIndex2.getTransformedHashes, hbad]

set_option maxRecDepth 4096 in
/-- Witness for C3: two payloads on the same hash give one distinct hash and
a query reporting both payloads at distance 0. -/
theorem c3_witness :
    (PDQIndex2.init PDQ_CONFIDENT_MATCH_THRESHOLD
        (((1 : Nat) :: [2]).map fun x => (testHashA, x))).2 = none ∧
    PDQIndex2.len (PDQIndex2.init PDQ_CONFIDENT_MATCH_THRESHOLD
        (((1 : Nat) :: [2]).map fun x => (testHashA, x))).1 = 1 ∧
    PDQIndex2.query (PDQIndex2.init PDQ_CONFIDENT_MATCH_THRESHOLD
        (((1 : Nat) :: [2]).map fun x => (testHashA, x))).1 testHashA =
      some (((1 : Nat) :: [2]).map fun x => ((0 : Nat), x)) :=
  c3_pdqindex2_dedups Nat testHashA ((hex_to_binary_str testHashA).getD [])
    1 [2] (by decide)

set_option maxRecDepth 4096 in
/-- Witness for C4: a batch with a valid pair then a malformed pair stops
with MalformedHash, keeping the first mutation; querying the malformed hash
fails. -/
theorem c4_witness :
    PDQIndex2.addAll (PDQIndex2.emptyState (M := Nat) 31)
        ([(testHashA, 1)] ++ (badHash, 2) :: []) =
      ((PDQIndex2.addAll (PDQIndex2.emptyState (M := Nat) 31)
          [(testHashA, 1)]).1, some PDQError.malformedHash) ∧
    PDQIndex2.query
        (PDQIndex2.addAll (PDQIndex2.emptyState (M := Nat) 31)
          [(testHashA, 1)]).1 badHash = none :=
  c4_fail_fast_with_partial_effect Nat (PDQIndex2.emptyState 31)
    [(testHashA, 1)] [] badHash 2 (Inv_empty 31) (by decide) (by decide)

set_option maxRecDepth 4096 in
/-- Witness for C5: a concrete one-entry index and query whose result is one
group for id 0 with distance 0. -/
theorem c5_witness :
    ∃ ths stream,
      PDQIndex2.getTransformedHashes testHashA = some ths ∧
      PDQIndex2.searchTransformed
        (PDQIndex2.init (M := Nat) 31 [(testHashA, 0)]).1 ths = some stream ∧
      ((firstHits stream []).map Prod.fst).Nodup ∧
      [((0 : Nat), (0 : Nat), (0 : Nat))] = (firstHits stream []).flatMap
        (fun p => (((PDQIndex2.init (M := Nat) 31
            [(testHashA, 0)]).1).idxToEntries.getD p.1 []).map
          fun m => (p.1, p.2, m)) :=
  c5_query_dedups_ids Nat (PDQIndex2.init (M := Nat) 31 [(testHashA, 0)]).1
    testHashA [(0, 0, 0)] (by decide)

set_option maxRecDepth 4096 in
/-- Witness for C7: the single match of the concrete query has distance 0,
within threshold 31, equal to the Hamming distance of the identity
orientation to the stored vector. -/
theorem c7_witness :
    (((0, 0, 0) : Nat × Nat × Nat).2.1 : Int) ≤
        (PDQIndex2.init (M := Nat) 31 [(testHashA, 0)]).1.threshold ∧
      ∃ ths th v, PDQIndex2.getTransformedHashes testHashA = some ths ∧
        th ∈ ths ∧ hex_to_binary_str th = some v ∧
        ((0, 0, 0) : Nat × Nat × Nat).2.1 =
          hamming v
            ((PDQIndex2.init (M := Nat) 31
              [(testHashA, 0)]).1.storedVecs.getD
                ((0, 0, 0) : Nat × Nat × Nat).1 []) :=
  c7_distances_true_and_bounded Nat
    (PDQIndex2.init (M := Nat) 31 [(testHashA, 0)]).1 testHashA [(0, 0, 0)]
    (by decide) (0, 0, 0) (by decide)

set_option maxRecDepth 4096 in
/-- Witness for C10: on one-entry indexes of both classes, the id 0 returned
by a self-query backend search is in range of the entry lists. -/
theorem c10_witness :
    ((0, 0) : Nat × Nat).1 <
        (PDQIndex2.run (M := Nat) 31 [[(testHashA, 1)]]).idxToEntries.length ∧
      ((0, 0) : Nat × Nat).1 <
        (PDQIndex.run (M := Nat) [[(testHashA, 1)]]).localIdToEntry.length :=
  c10_search_ids_in_range Nat 31 [[(testHashA, 1)]] [[(testHashA, 1)]]
    ((hex_to_binary_str testHashA).getD []) ((hex_to_binary_str testHashA).getD [])
    (0, 0) (0, 0) (by decide) (by decide)
